import Mathlib

/-!
Shallow embedding of the dependency-request construction layer of
`cargo add` (`src/crates/cargo-add/src/bin/cargo/commands/add.rs`),
together with proofs of the specification's claims about it.

Strings are modelled as lists of characters (`Str`); Rust panics and
`anyhow::bail!` failures are modelled with `Option` / `Except`.
-/

namespace CargoAdd

/-- Strings are modelled as lists of characters. -/
abbrev Str := List Char

/-- Models Rust `str::split_whitespace`: split on whitespace characters and
discard the empty fragments, so that only the maximal non-whitespace runs
remain. -/
def split_whitespace (s : Str) : List Str :=
  (List.splitOnP (fun c => c.isWhitespace) s).filter (fun t => t ≠ [])

/-- Models Rust `str::split(',')`: split on every comma, keeping empty
fragments. -/
def splitComma (s : Str) : List Str :=
  List.splitOnP (fun c => c == ',') s

/-- Embeds `parse_feature` from `add.rs`: split the feature list on
whitespace, split each fragment on commas, and drop empty fragments. -/
def parse_feature (s : Str) : List Str :=
  ((split_whitespace s).flatMap splitComma).filter (fun t => t ≠ [])

/-- Models `indexmap::IndexSet` insertion: append the element at the end
unless it is already present (first-seen order, duplicates removed). -/
def indexSetInsert (s : List Str) (x : Str) : List Str :=
  if x ∈ s then s else s ++ [x]

/-- Models `IndexSet::extend`: insert the elements one by one. -/
def indexSetExtend (s : List Str) (xs : List Str) : List Str :=
  xs.foldl indexSetInsert s

/-- Models `collect::<IndexSet<_>>()` on an iterator. -/
def indexSetOfList (xs : List Str) : List Str :=
  indexSetExtend [] xs

/-- Embeds the `DepOp` request structure handed to the manifest-editing
engine; `features` is the insertion-ordered feature set. -/
structure DepOp where
  crate_spec : Str
  rename : Option Str
  features : Option (List Str)
  default_features : Option Bool
  optional : Option Bool
  registry : Option Str
  git : Option Str
  branch : Option Str
  rev : Option Str
  tag : Option Str
deriving DecidableEq, Repr

/-- Enumerates the `anyhow::bail!` failures of `parse_dependencies`; the
exact user-facing message of each is `AddError.message`. -/
inductive AddError where
  | multipleCratesWithGit
  | gitUnstable
  | multipleCratesWithRename
  | multipleCratesWithFeatures
  | featureSyntaxUnstable
  | featureWithoutPkgid
deriving DecidableEq, Repr

/-- Maps each failure to the message of the corresponding `bail!` in
`parse_dependencies`. -/
def AddError.message : AddError → String
  | .multipleCratesWithGit => "cannot specify multiple crates with path or git or vers"
  | .gitUnstable => "`--git` is unstable and requires `-Z unstable-options`"
  | .multipleCratesWithRename => "cannot specify multiple crates with rename"
  | .multipleCratesWithFeatures => "cannot specify multiple crates with features"
  | .featureSyntaxUnstable => "`+<feature>` is unstable and requires `-Z unstable-options`"
  | .featureWithoutPkgid => "`+<feature>` must be preceded by a pkgid"

/-- Collects the inputs `parse_dependencies` reads from the argument
matches and the config: the raw token list, the single-valued modifiers,
the tri-state switches already produced by the option normalizer (the
control flow of the spec runs the normalizer before the builder), the raw
occurrences of the shared `--features` modifier, and the
`-Z unstable-options` gate. -/
structure AddArgs where
  crates : List Str
  git : Option Str
  branch : Option Str
  rev : Option Str
  tag : Option Str
  rename : Option Str
  registry : Option Str
  default_features : Option Bool
  optional : Option Bool
  features_args : Option (List Str)
  unstable_options : Bool
deriving DecidableEq, Repr

/-- Embeds the computation of the shared feature set in
`parse_dependencies`: each `--features` occurrence is split by
`parse_feature` and the results are collected into an `IndexSet`. -/
def depFeatures (a : AddArgs) : Option (List Str) :=
  a.features_args.map (fun fs => indexSetOfList (fs.flatMap parse_feature))

/-- Embeds the `DepOp` literal built for a crate token in the loop of
`parse_dependencies`: the shared modifiers are cloned into the request. -/
def mkDepOp (a : AddArgs) (crate_spec : Str) : DepOp :=
  { crate_spec := crate_spec
    rename := a.rename
    features := depFeatures a
    default_features := a.default_features
    optional := a.optional
    registry := a.registry
    git := a.git
    branch := a.branch
    rev := a.rev
    tag := a.tag }

/-- Models `crate_spec.strip_prefix('+')`. -/
def stripPlus : Str → Option Str
  | '+' :: rest => some rest
  | _ => none

/-- Identifies a crate token: any token that `strip_prefix('+')` rejects, in
other words any token not beginning with `+`. -/
def isCrateToken (t : Str) : Bool :=
  (stripPlus t).isNone

/-- Applies a function to the last element of a list, modelling
`Vec::last_mut` followed by a mutation. -/
def modifyLast (f : DepOp → DepOp) : List DepOp → List DepOp
  | [] => []
  | [d] => [f d]
  | d :: d' :: ds => d :: modifyLast f (d' :: ds)

/-- Embeds the mutation of the prior request on a feature-attachment token:
`prior.features.get_or_insert_with(Default::default).extend(parse_feature(payload))`. -/
def extendPrior (payload : Str) (prior : DepOp) : DepOp :=
  { prior with
    features := some (indexSetExtend (prior.features.getD []) (parse_feature payload)) }

/-- Embeds the token loop of `parse_dependencies`: crate tokens push a new
request, feature-attachment tokens (after the unstable gate) mutate the
last request, and a leading attachment token fails. -/
def addDepsLoop (a : AddArgs) : List Str → List DepOp → Except AddError (List DepOp)
  | [], deps => .ok deps
  | crate_spec :: rest, deps =>
    match stripPlus crate_spec with
    | some payload =>
      if a.unstable_options = false then
        .error .featureSyntaxUnstable
      else if deps = [] then
        .error .featureWithoutPkgid
      else
        addDepsLoop a rest (modifyLast (extendPrior payload) deps)
    | none =>
      addDepsLoop a rest (deps ++ [mkDepOp a crate_spec])

/-- Embeds `parse_dependencies`: the four pre-validation checks in source
order, then the token loop starting from an empty request list. -/
def parse_dependencies (a : AddArgs) : Except AddError (List DepOp) :=
  if 1 < a.crates.length ∧ a.git.isSome then
    .error .multipleCratesWithGit
  else if a.git.isSome ∧ a.unstable_options = false then
    .error .gitUnstable
  else if 1 < a.crates.length ∧ a.rename.isSome then
    .error .multipleCratesWithRename
  else if 1 < a.crates.length ∧ (depFeatures a).isSome then
    .error .multipleCratesWithFeatures
  else
    addDepsLoop a a.crates []

/-- Embeds `resolve_bool_arg`; the outer `Option` models the
`unreachable!` panic on `(true, true)`, which the mutual exclusion
declared at argument-collection time prevents upstream. -/
def resolve_bool_arg (yes no : Bool) : Option (Option Bool) :=
  match yes, no with
  | true, false => some (some true)
  | false, true => some (some false)
  | false, false => some none
  | _, _ => none

/-- Embeds `default_features`: the normalizer applied to the
`--default-features` / `--no-default-features` presence flags. -/
def default_features (defaultFlag noDefaultFlag : Bool) : Option (Option Bool) :=
  resolve_bool_arg defaultFlag noDefaultFlag

/-- Embeds `optional`: the normalizer applied to the `--optional` /
`--no-optional` presence flags. -/
def optional (optionalFlag noOptionalFlag : Bool) : Option (Option Bool) :=
  resolve_bool_arg optionalFlag noOptionalFlag

/-- Embeds `cargo::core::dependency::DepKind` as used by `parse_section`. -/
inductive DepKind where
  | Normal
  | Development
  | Build
deriving DecidableEq, Repr

/-- Models the spec's Section Descriptor (`DepTable`, whose definition lives
outside this crate): a dependency kind plus an optional target platform. -/
structure DepTable where
  kind : DepKind
  target : Option Str
deriving DecidableEq, Repr

/-- Embeds `parse_section`: kind from the mutually exclusive `--dev` /
`--build` flags, then the target attached after the non-emptiness
assertion; `none` models the `assert!` panic on an empty target. -/
def parse_section (dev build : Bool) (target : Option Str) : Option DepTable :=
  let kind := if dev then DepKind.Development else if build then DepKind.Build else DepKind.Normal
  match target with
  | none => some { kind := kind, target := none }
  | some t => if t = [] then none else some { kind := kind, target := some t }

/-- Provides an `AddArgs` value with every input absent, used as the base
of concrete test inputs. -/
def noArgs : AddArgs :=
  { crates := []
    git := none
    branch := none
    rev := none
    tag := none
    rename := none
    registry := none
    default_features := none
    optional := none
    features_args := none
    unstable_options := false }

/-- Accumulator-based tokenizer that collects the maximal whitespace-free
runs of a string, written directly from the wording of the spec (split on
any run of whitespace). -/
def splitWsRunsAux (cur : Str) : Str → List Str
  | [] => if cur = [] then [] else [cur.reverse]
  | c :: cs =>
    if c.isWhitespace then
      if cur = [] then splitWsRunsAux [] cs else cur.reverse :: splitWsRunsAux [] cs
    else
      splitWsRunsAux (c :: cur) cs

/-- Splits a string into its maximal whitespace-free runs. -/
def splitWsRuns (s : Str) : List Str :=
  splitWsRunsAux [] s

/-- Restates the feature-token splitting rule in the words of the spec:
split on any whitespace run, then split each resulting fragment on commas,
then discard empty fragments. -/
def parse_feature_spec (s : Str) : List Str :=
  ((splitWsRuns s).flatMap splitComma).filter (fun t => t ≠ [])

/-- Selects, from a stream of names, the first occurrence of each name not
already in `seen`, in stream order; this captures the first-seen order in
which an `IndexSet` accumulates new names. -/
def newFirstOccur (seen : List Str) : List Str → List Str
  | [] => []
  | x :: xs => if x ∈ seen then newFirstOccur seen xs else x :: newFirstOccur (seen ++ [x]) xs

/-- States that a request has a well-formed feature set: if its `features`
field is present, the list holds no empty name and no duplicate. -/
def GoodFeatures (d : DepOp) : Prop :=
  ∀ l, d.features = some l → ([] ∉ l ∧ l.Nodup)

/-- Decides equality of `Except` results, so that concrete runs of the
builder can be checked by evaluation. -/
instance exceptDecEq {ε α : Type} [DecidableEq ε] [DecidableEq α] :
    DecidableEq (Except ε α) := fun x y =>
  match x, y with
  | .ok a, .ok b =>
    if h : a = b then isTrue (by rw [h]) else
      isFalse (by intro hc; injection hc with h2; exact h h2)
  | .error a, .error b =>
    if h : a = b then isTrue (by rw [h]) else
      isFalse (by intro hc; injection hc with h2; exact h h2)
  | .ok _, .error _ => isFalse (by intro hc; exact Except.noConfusion hc)
  | .error _, .ok _ => isFalse (by intro hc; exact Except.noConfusion hc)

theorem addDepsLoop_crates_irrelevant (a : AddArgs) (x : List Str) :
    ∀ ts acc, addDepsLoop { a with crates := x } ts acc = addDepsLoop a ts acc := by
  intro ts
  induction ts with
  | nil => intro acc; rfl
  | cons t ts ih =>
    intro acc
    simp only [addDepsLoop]
    cases stripPlus t with
    | some payload => simp only [ih]
    | none => simp only [ih]; rfl

theorem modifyLast_crate_spec (f : DepOp → DepOp)
    (hf : ∀ d, (f d).crate_spec = d.crate_spec) :
    ∀ l : List DepOp,
      (modifyLast f l).map (fun d => d.crate_spec) = l.map (fun d => d.crate_spec) := by
  intro l
  induction l with
  | nil => rfl
  | cons d ds ih =>
    cases ds with
    | nil => simp [modifyLast, hf]
    | cons d' ds' =>
      simp only [modifyLast, List.map_cons] at ih ⊢
      rw [ih]

theorem addDepsLoop_error_cases (a : AddArgs) :
    ∀ ts acc e, addDepsLoop a ts acc = .error e →
      e = AddError.featureSyntaxUnstable ∨ e = AddError.featureWithoutPkgid := by
  intro ts
  induction ts with
  | nil => intro acc e h; exact absurd h (by simp [addDepsLoop])
  | cons t ts ih =>
    intro acc e h
    cases hs : stripPlus t with
    | some payload =>
      simp only [addDepsLoop, hs] at h
      by_cases hg : a.unstable_options = false
      · rw [if_pos hg] at h
        exact Or.inl (Except.error.inj h).symm
      · rw [if_neg hg] at h
        by_cases hd : acc = []
        · rw [if_pos hd] at h
          exact Or.inr (Except.error.inj h).symm
        · rw [if_neg hd] at h
          exact ih _ _ h
    | none =>
      simp only [addDepsLoop, hs] at h
      exact ih _ _ h

theorem addDepsLoop_map_crate_spec (a : AddArgs) :
    ∀ ts acc deps, addDepsLoop a ts acc = .ok deps →
      deps.map (fun d => d.crate_spec) =
        acc.map (fun d => d.crate_spec) ++ ts.filter isCrateToken := by
  intro ts
  induction ts with
  | nil =>
    intro acc deps h
    simp only [addDepsLoop] at h
    simp [← Except.ok.inj h]
  | cons t ts ih =>
    intro acc deps h
    cases hs : stripPlus t with
    | some payload =>
      simp only [addDepsLoop, hs] at h
      by_cases hg : a.unstable_options = false
      · rw [if_pos hg] at h; exact absurd h (by simp)
      · rw [if_neg hg] at h
        by_cases hd : acc = []
        · rw [if_pos hd] at h; exact absurd h (by simp)
        · rw [if_neg hd] at h
          have hcrate : isCrateToken t = false := by
            simp [isCrateToken, hs]
          rw [ih _ _ h, modifyLast_crate_spec (extendPrior payload) (fun d => rfl),
            List.filter_cons, hcrate]
          simp
    | none =>
      simp only [addDepsLoop, hs] at h
      have hcrate : isCrateToken t = true := by
        simp [isCrateToken, hs]
      rw [ih _ _ h, List.filter_cons, hcrate]
      simp [mkDepOp]

theorem modifyLast_append_singleton (f : DepOp → DepOp) (d : DepOp) :
    ∀ ds : List DepOp, modifyLast f (ds ++ [d]) = ds ++ [f d] := by
  intro ds
  induction ds with
  | nil => rfl
  | cons x xs ih =>
    cases xs with
    | nil => rfl
    | cons y ys =>
      simp only [List.cons_append, List.append_eq, modifyLast] at ih ⊢
      rw [ih]

theorem addDepsLoop_append (a : AddArgs) :
    ∀ xs ys acc, addDepsLoop a (xs ++ ys) acc =
      match addDepsLoop a xs acc with
      | .ok acc' => addDepsLoop a ys acc'
      | .error e => .error e := by
  intro xs
  induction xs with
  | nil => intro ys acc; rfl
  | cons x xs ih =>
    intro ys acc
    cases hs : stripPlus x with
    | some payload =>
      simp only [List.cons_append, addDepsLoop, hs]
      by_cases hg : a.unstable_options = false
      · rw [if_pos hg, if_pos hg]
      · rw [if_neg hg, if_neg hg]
        by_cases hd : acc = []
        · rw [if_pos hd, if_pos hd]
        · rw [if_neg hd, if_neg hd]
          exact ih ys _
    | none =>
      simp only [List.cons_append, addDepsLoop, hs]
      exact ih ys _

theorem mem_indexSetInsert (s : List Str) (x y : Str) :
    y ∈ indexSetInsert s x ↔ y ∈ s ∨ y = x := by
  unfold indexSetInsert
  by_cases hx : x ∈ s
  · rw [if_pos hx]
    constructor
    · exact Or.inl
    · rintro (h | rfl)
      · exact h
      · exact hx
  · rw [if_neg hx]
    simp

theorem nodup_indexSetInsert (s : List Str) (x : Str) (h : s.Nodup) :
    (indexSetInsert s x).Nodup := by
  unfold indexSetInsert
  by_cases hx : x ∈ s
  · rwa [if_pos hx]
  · rw [if_neg hx]
    simp [List.nodup_append, h, hx]

theorem mem_indexSetExtend (xs : List Str) :
    ∀ s y, y ∈ indexSetExtend s xs → y ∈ s ∨ y ∈ xs := by
  induction xs with
  | nil => intro s y h; exact Or.inl h
  | cons x xs ih =>
    intro s y h
    simp only [indexSetExtend, List.foldl_cons] at h
    rcases ih (indexSetInsert s x) y h with h' | h'
    · rcases (mem_indexSetInsert s x y).1 h' with h'' | rfl
      · exact Or.inl h''
      · exact Or.inr (List.mem_cons_self _ _)
    · exact Or.inr (List.mem_cons_of_mem _ h')

theorem nodup_indexSetExtend (xs : List Str) :
    ∀ s, s.Nodup → (indexSetExtend s xs).Nodup := by
  induction xs with
  | nil => intro s h; exact h
  | cons x xs ih =>
    intro s h
    simp only [indexSetExtend, List.foldl_cons]
    exact ih _ (nodup_indexSetInsert s x h)

theorem indexSetExtend_eq_append (xs : List Str) :
    ∀ s, indexSetExtend s xs = s ++ newFirstOccur s xs := by
  induction xs with
  | nil => intro s; simp [indexSetExtend, newFirstOccur]
  | cons x xs ih =>
    intro s
    simp only [indexSetExtend, List.foldl_cons, newFirstOccur] at ih ⊢
    by_cases hx : x ∈ s
    · have heq : indexSetInsert s x = s := by unfold indexSetInsert; rw [if_pos hx]
      rw [if_pos hx, heq]
      exact ih s
    · have hins : indexSetInsert s x = s ++ [x] := by unfold indexSetInsert; rw [if_neg hx]
      rw [if_neg hx, hins, ih (s ++ [x])]
      simp

theorem exists_splitOnP_cons (p : Char → Bool) (xs : Str) :
    ∃ h tl, List.splitOnP p xs = h :: tl := by
  cases hx : List.splitOnP p xs with
  | nil => exact absurd hx (List.splitOnP_ne_nil _ _)
  | cons h tl => exact ⟨h, tl, rfl⟩

theorem splitWsRunsAux_splitOnP (s : Str) :
    ∀ cur : Str,
      splitWsRunsAux cur s =
        ((List.splitOnP (fun c => c.isWhitespace) s).modifyHead
          (fun h => cur.reverse ++ h)).filter (fun t => t ≠ []) := by
  induction s with
  | nil =>
    intro cur
    rw [List.splitOnP_nil]
    by_cases hc : cur = []
    · subst hc; simp [splitWsRunsAux, List.modifyHead]
    · simp [splitWsRunsAux, List.modifyHead, hc, List.reverse_eq_nil_iff]
  | cons c cs ih =>
    intro cur
    obtain ⟨h, tl, hx⟩ := exists_splitOnP_cons (fun c => c.isWhitespace) cs
    by_cases hw : c.isWhitespace
    · have ih0 := ih []
      rw [hx] at ih0
      simp only [List.modifyHead, List.reverse_nil, List.nil_append] at ih0
      rw [List.splitOnP_cons, if_pos hw, hx]
      by_cases hc : cur = []
      · subst hc
        simp [splitWsRunsAux, hw, ih0, List.modifyHead]
      · simp [splitWsRunsAux, hw, hc, ih0, List.modifyHead, List.reverse_eq_nil_iff]
    · have ih1 := ih (c :: cur)
      rw [hx] at ih1
      simp only [List.modifyHead] at ih1
      rw [List.splitOnP_cons, if_neg hw, hx]
      simp only [List.modifyHead]
      rw [show splitWsRunsAux cur (c :: cs) = splitWsRunsAux (c :: cur) cs by
        simp [splitWsRunsAux, hw]]
      rw [ih1]
      simp [List.reverse_cons, List.append_assoc]

theorem split_whitespace_eq_splitWsRuns (s : Str) :
    split_whitespace s = splitWsRuns s := by
  rw [split_whitespace, splitWsRuns, splitWsRunsAux_splitOnP]
  obtain ⟨h, tl, hx⟩ := exists_splitOnP_cons (fun c => c.isWhitespace) s
  rw [hx]
  simp [List.modifyHead]

theorem splitOnP_chars (p : Char → Bool) :
    ∀ (xs : Str) t, t ∈ List.splitOnP p xs → ∀ c ∈ t, p c = false ∧ c ∈ xs := by
  intro xs
  induction xs with
  | nil =>
    intro t ht c hc
    rw [List.splitOnP_nil, List.mem_singleton] at ht
    subst ht
    exact absurd hc (List.not_mem_nil c)
  | cons x xs ih =>
    intro t ht c hc
    rw [List.splitOnP_cons] at ht
    by_cases hp : p x
    · rw [if_pos hp] at ht
      rcases List.mem_cons.1 ht with rfl | ht'
      · exact absurd hc (List.not_mem_nil c)
      · obtain ⟨h1, h2⟩ := ih t ht' c hc
        exact ⟨h1, List.mem_cons_of_mem _ h2⟩
    · rw [if_neg hp] at ht
      obtain ⟨h, tl, hx⟩ := exists_splitOnP_cons p xs
      rw [hx] at ht
      simp only [List.modifyHead] at ht
      rcases List.mem_cons.1 ht with rfl | ht'
      · rcases List.mem_cons.1 hc with rfl | hc'
        · refine ⟨?_, List.mem_cons_self _ _⟩
          cases hpc : p c
          · rfl
          · exact absurd hpc hp
        · obtain ⟨h1, h2⟩ := ih h (hx ▸ List.mem_cons_self _ _) c hc'
          exact ⟨h1, List.mem_cons_of_mem _ h2⟩
      · obtain ⟨h1, h2⟩ := ih t (hx ▸ List.mem_cons_of_mem _ ht') c hc
        exact ⟨h1, List.mem_cons_of_mem _ h2⟩

theorem nil_not_mem_parse_feature (s : Str) : ([] : Str) ∉ parse_feature s := by
  intro h
  rw [parse_feature, List.mem_filter] at h
  simp at h

theorem parse_feature_fragments (s : Str) :
    ∀ t ∈ parse_feature s,
      t ≠ [] ∧ ∀ c ∈ t, c.isWhitespace = false ∧ (c == ',') = false := by
  intro t ht
  rw [parse_feature, List.mem_filter] at ht
  obtain ⟨htm, htne⟩ := ht
  refine ⟨by simpa using htne, ?_⟩
  intro c hc
  rw [List.mem_flatMap] at htm
  obtain ⟨u, hu, htu⟩ := htm
  rw [split_whitespace, List.mem_filter] at hu
  obtain ⟨hum, _⟩ := hu
  obtain ⟨hcomma, hcu⟩ := splitOnP_chars (fun c => c == ',') u t htu c hc
  obtain ⟨hws, _⟩ := splitOnP_chars (fun c => c.isWhitespace) s u hum c hcu
  exact ⟨hws, hcomma⟩

theorem split_whitespace_intercalate :
    ∀ L : List Str, (∀ t ∈ L, t ≠ []) → (∀ t ∈ L, ∀ c ∈ t, c.isWhitespace = false) →
      split_whitespace (List.intercalate [' '] L) = L := by
  intro L
  induction L with
  | nil =>
    intro _ _
    rw [show List.intercalate [' '] ([] : List Str) = [] by simp [List.intercalate],
      split_whitespace, List.splitOnP_nil]
    simp
  | cons x L ih =>
    intro hne hws
    cases L with
    | nil =>
      rw [show List.intercalate [' '] [x] = x by simp [List.intercalate], split_whitespace,
        List.splitOnP_eq_single _ _ ?hclean]
      case hclean =>
        intro c hc hp
        rw [hws x (List.mem_singleton_self x) c hc] at hp
        exact absurd hp (by simp)
      simp [hne x (List.mem_singleton_self x)]
    | cons y L' =>
      have hstep : List.intercalate [' '] (x :: y :: L') =
          x ++ ' ' :: List.intercalate [' '] (y :: L') := by
        simp [List.intercalate, List.intersperse_cons_cons]
      have hclean : ∀ c ∈ x, ¬((fun c => c.isWhitespace) c) := by
        intro c hc hp
        rw [hws x (List.mem_cons_self _ _) c hc] at hp
        exact absurd hp (by simp)
      rw [hstep, split_whitespace, List.splitOnP_first _ x hclean ' ' (by decide) _,
        List.filter_cons]
      rw [if_pos (by simpa using hne x (List.mem_cons_self _ _))]
      congr 1
      rw [← split_whitespace]
      exact ih (fun t ht => hne t (List.mem_cons_of_mem _ ht))
        (fun t ht => hws t (List.mem_cons_of_mem _ ht))

theorem flatMap_splitComma_id :
    ∀ L : List Str, (∀ t ∈ L, ∀ c ∈ t, (c == ',') = false) → L.flatMap splitComma = L := by
  intro L
  induction L with
  | nil => intro _; rfl
  | cons x L ih =>
    intro hc
    have hx : splitComma x = [x] := by
      rw [splitComma]
      refine List.splitOnP_eq_single _ _ ?_
      intro c hcx hp
      rw [hc x (List.mem_cons_self _ _) c hcx] at hp
      exact absurd hp (by simp)
    rw [List.flatMap_cons, hx, ih (fun t ht => hc t (List.mem_cons_of_mem _ ht))]
    rfl

theorem parse_feature_intercalate (L : List Str)
    (hne : ∀ t ∈ L, t ≠ [])
    (hws : ∀ t ∈ L, ∀ c ∈ t, c.isWhitespace = false)
    (hcm : ∀ t ∈ L, ∀ c ∈ t, (c == ',') = false) :
    parse_feature (List.intercalate [' '] L) = L := by
  rw [parse_feature, split_whitespace_intercalate L hne hws, flatMap_splitComma_id L hcm]
  refine List.filter_eq_self.mpr ?_
  intro t ht
  simpa using hne t ht

theorem goodFeatures_mkDepOp (a : AddArgs) (c : Str) : GoodFeatures (mkDepOp a c) := by
  intro l hl
  rw [show (mkDepOp a c).features = depFeatures a from rfl, depFeatures] at hl
  cases hf : a.features_args with
  | none => rw [hf] at hl; exact absurd hl (by simp)
  | some fs =>
    rw [hf] at hl
    simp only [Option.map_some'] at hl
    obtain rfl : l = indexSetOfList (fs.flatMap parse_feature) := (Option.some.inj hl).symm
    constructor
    · intro hmem
      rcases mem_indexSetExtend _ _ _ hmem with h | h
      · exact absurd h (List.not_mem_nil _)
      · obtain ⟨u, _, hmem'⟩ := List.mem_flatMap.1 h
        exact nil_not_mem_parse_feature u hmem'
    · exact nodup_indexSetExtend _ _ List.nodup_nil

theorem goodFeatures_extendPrior (payload : Str) (d : DepOp) (hd : GoodFeatures d) :
    GoodFeatures (extendPrior payload d) := by
  intro l hl
  obtain rfl : l = indexSetExtend (d.features.getD []) (parse_feature payload) :=
    (Option.some.inj hl).symm
  constructor
  · intro hmem
    rcases mem_indexSetExtend _ _ _ hmem with h | h
    · cases hdf : d.features with
      | none => rw [hdf] at h; exact absurd h (List.not_mem_nil _)
      | some l0 => rw [hdf] at h; exact (hd l0 hdf).1 h
    · exact nil_not_mem_parse_feature payload h
  · apply nodup_indexSetExtend
    cases hdf : d.features with
    | none => simp
    | some l0 =>
      rw [Option.getD_some]
      exact (hd l0 hdf).2

theorem goodFeatures_modifyLast (f : DepOp → DepOp)
    (hf : ∀ d, GoodFeatures d → GoodFeatures (f d)) :
    ∀ l : List DepOp, (∀ d ∈ l, GoodFeatures d) → ∀ d ∈ modifyLast f l, GoodFeatures d := by
  intro l
  induction l with
  | nil => intro _ d hd; exact absurd hd (List.not_mem_nil d)
  | cons x xs ih =>
    intro hl d hd
    cases xs with
    | nil =>
      simp only [modifyLast, List.mem_singleton] at hd
      subst hd
      exact hf x (hl x (List.mem_cons_self _ _))
    | cons y ys =>
      simp only [modifyLast] at hd
      rcases List.mem_cons.1 hd with rfl | hd'
      · exact hl d (List.mem_cons_self _ _)
      · exact ih (fun e he => hl e (List.mem_cons_of_mem _ he)) d hd'

theorem goodFeatures_addDepsLoop (a : AddArgs) :
    ∀ ts acc deps, (∀ d ∈ acc, GoodFeatures d) →
      addDepsLoop a ts acc = .ok deps → ∀ d ∈ deps, GoodFeatures d := by
  intro ts
  induction ts with
  | nil =>
    intro acc deps hacc h
    simp only [addDepsLoop] at h
    exact (Except.ok.inj h) ▸ hacc
  | cons t ts ih =>
    intro acc deps hacc h
    cases hs : stripPlus t with
    | some payload =>
      simp only [addDepsLoop, hs] at h
      by_cases hg : a.unstable_options = false
      · rw [if_pos hg] at h; exact absurd h (by simp)
      · rw [if_neg hg] at h
        by_cases hd : acc = []
        · rw [if_pos hd] at h; exact absurd h (by simp)
        · rw [if_neg hd] at h
          exact ih _ _
            (goodFeatures_modifyLast _ (fun e he => goodFeatures_extendPrior payload e he) _ hacc) h
    | none =>
      simp only [addDepsLoop, hs] at h
      refine ih _ _ ?_ h
      intro d hd
      rcases List.mem_append.1 hd with hd' | hd'
      · exact hacc d hd'
      · rcases List.mem_singleton.1 hd' with rfl
        exact goodFeatures_mkDepOp a t

theorem addDepsLoop_append_ok (a : AddArgs) (xs ys : List Str) (acc ds : List DepOp)
    (h : addDepsLoop a xs acc = .ok ds) :
    addDepsLoop a (xs ++ ys) acc = addDepsLoop a ys ds := by
  rw [addDepsLoop_append, h]

/-- Claim C1, counterexample: an input with exactly one crate token (plus a
feature-attachment token) and a git source does fail with the
multiple-crates-with-git ambiguity error, because the pre-validation
counts raw tokens, not crate tokens. -/
theorem oneCrateTokenAmbiguityCounterexample :
    ((([("serde".data : Str), "+derive".data]).filter isCrateToken).length ≤ 1) ∧
    parse_dependencies
      { noArgs with
        crates := ["serde".data, "+derive".data]
        git := some "url".data
        unstable_options := true } = .error .multipleCratesWithGit := by
  decide

/-- Claim C1, amended: for every input whose raw token list (crate tokens
and feature-attachment tokens together) has at most one element, the
builder never fails with any of the three ambiguity errors, whatever git
source, rename, or shared feature list is supplied. -/
theorem atMostOneTokenNoAmbiguityError (a : AddArgs) (h : a.crates.length ≤ 1) :
    parse_dependencies a ≠ .error .multipleCratesWithGit ∧
    parse_dependencies a ≠ .error .multipleCratesWithRename ∧
    parse_dependencies a ≠ .error .multipleCratesWithFeatures := by
  have hlen : ¬(1 < a.crates.length) := Nat.not_lt.mpr h
  rw [parse_dependencies, if_neg (fun hcon => hlen hcon.1)]
  by_cases hgu : a.git.isSome = true ∧ a.unstable_options = false
  · rw [if_pos hgu]
    exact ⟨by decide, by decide, by decide⟩
  · rw [if_neg hgu, if_neg (fun hcon => hlen hcon.1), if_neg (fun hcon => hlen hcon.1)]
    refine ⟨?_, ?_, ?_⟩ <;> intro hcon <;>
      rcases addDepsLoop_error_cases a a.crates [] _ hcon with h' | h' <;>
        exact absurd h' (by decide)

/-- Claim C1, witness: the amended theorem applied to a single-token input
carrying a git source, a rename, and a shared feature list at once. -/
theorem atMostOneTokenNoAmbiguityErrorWitness :
    parse_dependencies
      { noArgs with
        crates := ["serde".data]
        git := some "url".data
        rename := some "sd".data
        features_args := some ["derive".data]
        unstable_options := true } ≠ .error .multipleCratesWithGit ∧
    parse_dependencies
      { noArgs with
        crates := ["serde".data]
        git := some "url".data
        rename := some "sd".data
        features_args := some ["derive".data]
        unstable_options := true } ≠ .error .multipleCratesWithRename ∧
    parse_dependencies
      { noArgs with
        crates := ["serde".data]
        git := some "url".data
        rename := some "sd".data
        features_args := some ["derive".data]
        unstable_options := true } ≠ .error .multipleCratesWithFeatures :=
  atMostOneTokenNoAmbiguityError _ (by decide)

/-- Claim C2, counterexample: with the unstable gate disabled, a leading
feature-attachment token fails with the gating error, not the sequencing
error, because the gate is checked first. -/
theorem leadingAttachmentGateCounterexample :
    parse_dependencies { noArgs with crates := ["+derive".data] } =
      .error .featureSyntaxUnstable ∧
    AddError.featureSyntaxUnstable ≠ AddError.featureWithoutPkgid := by
  decide

/-- Claim C2, amended: an input whose first token is a feature-attachment
token always fails; the failure is the sequencing error (must be preceded
by a pkgid) whenever the unstable gate is enabled and no git source,
rename, or shared feature list triggers an earlier check. -/
theorem leadingAttachmentAlwaysFails (a : AddArgs) (t payload : Str) (rest : List Str)
    (hcr : a.crates = t :: rest) (ht : stripPlus t = some payload) :
    (∃ e, parse_dependencies a = .error e) ∧
    (a.unstable_options = true → a.git = none → a.rename = none → a.features_args = none →
      parse_dependencies a = .error .featureWithoutPkgid) := by
  constructor
  · rw [parse_dependencies]
    split
    · exact ⟨_, rfl⟩
    · split
      · exact ⟨_, rfl⟩
      · split
        · exact ⟨_, rfl⟩
        · split
          · exact ⟨_, rfl⟩
          · rw [hcr]
            simp only [addDepsLoop, ht]
            by_cases hg : a.unstable_options = false
            · rw [if_pos hg]; exact ⟨_, rfl⟩
            · rw [if_neg hg, if_pos trivial]; exact ⟨_, rfl⟩
  · intro hu hg hr hfa
    have hdf : depFeatures a = none := by rw [depFeatures, hfa]; rfl
    rw [parse_dependencies,
      if_neg (fun hcon => by rw [hg] at hcon; exact absurd hcon.2 (by simp)),
      if_neg (fun hcon => by rw [hg] at hcon; exact absurd hcon.1 (by simp)),
      if_neg (fun hcon => by rw [hr] at hcon; exact absurd hcon.2 (by simp)),
      if_neg (fun hcon => by rw [hdf] at hcon; exact absurd hcon.2 (by simp)),
      hcr]
    simp only [addDepsLoop, ht]
    rw [if_neg (by simp [hu]), if_pos trivial]

/-- Claim C2, witness: the amended theorem applied to the single leading
attachment token, gate enabled and no other modifier, yielding exactly the
sequencing error. -/
theorem leadingAttachmentAlwaysFailsWitness :
    parse_dependencies { noArgs with crates := ["+f".data], unstable_options := true } =
      .error .featureWithoutPkgid :=
  (leadingAttachmentAlwaysFails
    { noArgs with crates := ["+f".data], unstable_options := true }
    "+f".data "f".data [] rfl rfl).2 rfl rfl rfl rfl

/-- Claim C3: with two or more crate tokens, a git source triggers the
multiple-crates-with-git error; with no git source, a rename triggers the
multiple-crates-with-rename error; with neither, a shared feature list
triggers the multiple-crates-with-features error. -/
theorem multiCrateModifierErrors (a : AddArgs)
    (h : 2 ≤ (a.crates.filter isCrateToken).length) :
    (a.git.isSome = true → parse_dependencies a = .error .multipleCratesWithGit) ∧
    (a.git = none → a.rename.isSome = true →
      parse_dependencies a = .error .multipleCratesWithRename) ∧
    (a.git = none → a.rename = none → a.features_args.isSome = true →
      parse_dependencies a = .error .multipleCratesWithFeatures) := by
  have hlen : 1 < a.crates.length := by
    have hle := List.length_filter_le isCrateToken a.crates
    omega
  refine ⟨?_, ?_, ?_⟩
  · intro hgit
    rw [parse_dependencies, if_pos ⟨hlen, hgit⟩]
  · intro hg hr
    rw [parse_dependencies,
      if_neg (fun hcon => by rw [hg] at hcon; exact absurd hcon.2 (by simp)),
      if_neg (fun hcon => by rw [hg] at hcon; exact absurd hcon.1 (by simp)),
      if_pos ⟨hlen, hr⟩]
  · intro hg hr hfs
    obtain ⟨fs, hfs'⟩ := Option.isSome_iff_exists.1 hfs
    have hdf : (depFeatures a).isSome = true := by rw [depFeatures, hfs']; rfl
    rw [parse_dependencies,
      if_neg (fun hcon => by rw [hg] at hcon; exact absurd hcon.2 (by simp)),
      if_neg (fun hcon => by rw [hg] at hcon; exact absurd hcon.1 (by simp)),
      if_neg (fun hcon => by rw [hr] at hcon; exact absurd hcon.2 (by simp)),
      if_pos ⟨hlen, hdf⟩]

/-- Claim C3, witness: each of the three ambiguity errors observed on a
concrete two-crate input with the corresponding modifier supplied. -/
theorem multiCrateModifierErrorsWitness :
    parse_dependencies { noArgs with crates := ["a".data, "b".data], git := some "u".data } =
      .error .multipleCratesWithGit ∧
    parse_dependencies { noArgs with crates := ["a".data, "b".data], rename := some "r".data } =
      .error .multipleCratesWithRename ∧
    parse_dependencies
      { noArgs with crates := ["a".data, "b".data], features_args := some ["f".data] } =
      .error .multipleCratesWithFeatures :=
  ⟨(multiCrateModifierErrors _ (by decide)).1 (by decide),
   (multiCrateModifierErrors _ (by decide)).2.1 rfl (by decide),
   (multiCrateModifierErrors _ (by decide)).2.2 rfl rfl (by decide)⟩

/-- Claim C4: under the precondition that the two switches are not both
set, the option normalizer maps (true,false) to Some true, (false,true) to
Some false and (false,false) to None, and it is what the default-features
and optional switches invoke. -/
theorem optionNormalizerSpec (yes no : Bool) (h : ¬(yes = true ∧ no = true)) :
    resolve_bool_arg yes no =
      some (if yes then some true else if no then some false else none) ∧
    default_features yes no = resolve_bool_arg yes no ∧
    optional yes no = resolve_bool_arg yes no := by
  cases yes <;> cases no
  · exact ⟨rfl, rfl, rfl⟩
  · exact ⟨rfl, rfl, rfl⟩
  · exact ⟨rfl, rfl, rfl⟩
  · exact absurd ⟨rfl, rfl⟩ h

/-- Claim C4, witness: the normalizer at the concrete pair (true, false). -/
theorem optionNormalizerSpecWitness :
    resolve_bool_arg true false = some (some true) ∧
    default_features true false = resolve_bool_arg true false ∧
    optional true false = resolve_bool_arg true false :=
  optionNormalizerSpec true false (by decide)

/-- Claim C5: a successful run yields exactly one request per crate token,
in input order; the requests carry the crate tokens as their crate
references, and feature-attachment tokens add no entry. -/
theorem requestsMatchCrateTokens (a : AddArgs) (deps : List DepOp)
    (h : parse_dependencies a = .ok deps) :
    deps.map (fun d => d.crate_spec) = a.crates.filter isCrateToken := by
  rw [parse_dependencies] at h
  split at h
  · simp at h
  · split at h
    · simp at h
    · split at h
      · simp at h
      · split at h
        · simp at h
        · simpa using addDepsLoop_map_crate_spec a a.crates [] deps h

/-- Claim C5, witness: the crate tokens x and y with their attachment
tokens produce exactly the two requests for x and y, in order. -/
theorem requestsMatchCrateTokensWitness :
    List.map (fun (d : DepOp) => d.crate_spec)
      [{ crate_spec := "x".data
         rename := none
         features := some ["f1".data, "f2".data]
         default_features := none
         optional := none
         registry := none
         git := none
         branch := none
         rev := none
         tag := none },
       { crate_spec := "y".data
         rename := none
         features := some ["g1".data]
         default_features := none
         optional := none
         registry := none
         git := none
         branch := none
         rev := none
         tag := none }] =
      List.filter isCrateToken
        ["x".data, "+f1".data, "+f2".data, "y".data, "+g1".data] :=
  requestsMatchCrateTokens
    { noArgs with
      crates := ["x".data, "+f1".data, "+f2".data, "y".data, "+g1".data]
      unstable_options := true }
    _ (by decide)

/-- Claim C6: in every successful run, every request whose features set is
present holds no empty name and no duplicate; moreover extending an
insertion-ordered feature set keeps the existing names in place and
appends exactly the new names at their first occurrence, in stream order. -/
theorem featuresWellFormed :
    (∀ (a : AddArgs) (deps : List DepOp), parse_dependencies a = .ok deps →
      ∀ d ∈ deps, ∀ l, d.features = some l → (([] : Str) ∉ l ∧ l.Nodup)) ∧
    (∀ s xs : List Str, indexSetExtend s xs = s ++ newFirstOccur s xs) := by
  constructor
  · intro a deps h d hd l hl
    rw [parse_dependencies] at h
    split at h
    · simp at h
    · split at h
      · simp at h
      · split at h
        · simp at h
        · split at h
          · simp at h
          · exact goodFeatures_addDepsLoop a a.crates [] deps
              (fun d hd' => absurd hd' (List.not_mem_nil d)) h d hd l hl
  · intro s xs
    exact indexSetExtend_eq_append xs s

/-- Claim C6, witness: a run whose attachment token repeats a feature name
still yields a duplicate-free, empty-free feature list. -/
theorem featuresWellFormedWitness :
    (([] : Str) ∉ (["f1".data, "f2".data] : List Str)) ∧
      (["f1".data, "f2".data] : List Str).Nodup :=
  featuresWellFormed.1
    { noArgs with crates := ["x".data, "+f1 f1,f2".data], unstable_options := true }
    [{ crate_spec := "x".data
       rename := none
       features := some ["f1".data, "f2".data]
       default_features := none
       optional := none
       registry := none
       git := none
       branch := none
       rev := none
       tag := none }]
    (by decide)
    { crate_spec := "x".data
      rename := none
      features := some ["f1".data, "f2".data]
      default_features := none
      optional := none
      registry := none
      git := none
      branch := none
      rev := none
      tag := none }
    (by decide) ["f1".data, "f2".data] rfl

/-- Claim C7: the feature-token splitting function agrees, on every input,
with the rule as the spec words it (split on whitespace runs, then on
commas, then drop empties), and in particular splits a,b c into a, b, c. -/
theorem featureSplittingMatchesSpec :
    (∀ s : Str, parse_feature s = parse_feature_spec s) ∧
    parse_feature "a,b c".data = ["a".data, "b".data, "c".data] := by
  constructor
  · intro s
    rw [parse_feature, parse_feature_spec, split_whitespace_eq_splitWsRuns]
  · decide

/-- Claim C8: feature-token splitting is idempotent on already-split
input; joining any split result with single spaces and splitting again
returns the same sequence. -/
theorem featureSplittingIdempotent (s : Str) :
    parse_feature (List.intercalate [' '] (parse_feature s)) = parse_feature s := by
  refine parse_feature_intercalate _ ?_ ?_ ?_
  · intro t ht
    exact (parse_feature_fragments s t ht).1
  · intro t ht c hc
    exact ((parse_feature_fragments s t ht).2 c hc).1
  · intro t ht c hc
    exact ((parse_feature_fragments s t ht).2 c hc).2

/-- Claim C9: section parsing picks Development when the dev flag is set,
else Build when the build flag is set, else Normal; a supplied target must
be non-empty (the empty target aborts) and is attached to the section. -/
theorem sectionParsingSpec (dev build : Bool) (target : Option Str) :
    parse_section dev build target =
      if target = some [] then none
      else some
        { kind := if dev then DepKind.Development
                  else if build then DepKind.Build else DepKind.Normal
          target := target } := by
  cases target with
  | none => simp [parse_section]
  | some t =>
    by_cases htgt : t = []
    · subst htgt; simp [parse_section]
    · simp [parse_section, htgt]

/-- Claim C10, counterexample: a crate token followed by an empty
feature-attachment token, with the gate enabled and no shared feature
list, still fails when a git source is supplied, because the raw token
count is two. -/
theorem emptyAttachmentSuccessCounterexample :
    parse_dependencies
      { noArgs with
        crates := ["a".data, "+".data]
        git := some "g".data
        unstable_options := true } = .error .multipleCratesWithGit := by
  decide

/-- Claim C10, amended: with the gate enabled and no shared feature list,
git source, or rename, a feature-attachment token whose payload splits to
no feature names, placed after a crate token at the end of a successfully
parsed prefix, leaves the run successful and turns the preceding request
features from unspecified into a present-but-empty set. -/
theorem emptyAttachmentMakesEmptyFeatures (a : AddArgs) (pre : List Str) (c t payload : Str)
    (ds : List DepOp)
    (hu : a.unstable_options = true) (hfa : a.features_args = none)
    (hg : a.git = none) (hr : a.rename = none)
    (hcr : a.crates = pre ++ [c, t])
    (hc : stripPlus c = none) (ht : stripPlus t = some payload)
    (hpl : parse_feature payload = [])
    (hpre : parse_dependencies { a with crates := pre } = .ok ds) :
    parse_dependencies a = .ok (ds ++ [{ mkDepOp a c with features := some [] }]) ∧
    (mkDepOp a c).features = none := by
  have hdf : depFeatures a = none := by rw [depFeatures, hfa]; rfl
  have hfeat : (mkDepOp a c).features = none := hdf
  have hpre' : addDepsLoop a pre [] = .ok ds := by
    rw [parse_dependencies] at hpre
    rw [if_neg (fun hcon => by
        rw [show ({ a with crates := pre } : AddArgs).git = a.git from rfl, hg] at hcon
        exact absurd hcon.2 (by simp)),
      if_neg (fun hcon => by
        rw [show ({ a with crates := pre } : AddArgs).git = a.git from rfl, hg] at hcon
        exact absurd hcon.1 (by simp)),
      if_neg (fun hcon => by
        rw [show ({ a with crates := pre } : AddArgs).rename = a.rename from rfl, hr] at hcon
        exact absurd hcon.2 (by simp)),
      if_neg (fun hcon => by
        rw [show depFeatures { a with crates := pre } = depFeatures a from rfl, hdf] at hcon
        exact absurd hcon.2 (by simp)),
      show ({ a with crates := pre } : AddArgs).crates = pre from rfl,
      addDepsLoop_crates_irrelevant a pre pre []] at hpre
    exact hpre
  refine ⟨?_, hfeat⟩
  rw [parse_dependencies,
    if_neg (fun hcon => by rw [hg] at hcon; exact absurd hcon.2 (by simp)),
    if_neg (fun hcon => by rw [hg] at hcon; exact absurd hcon.1 (by simp)),
    if_neg (fun hcon => by rw [hr] at hcon; exact absurd hcon.2 (by simp)),
    if_neg (fun hcon => by rw [hdf] at hcon; exact absurd hcon.2 (by simp)),
    hcr, addDepsLoop_append_ok a pre [c, t] [] ds hpre',
    show addDepsLoop a [c, t] ds = addDepsLoop a [t] (ds ++ [mkDepOp a c]) by
      simp only [addDepsLoop, hc],
    show addDepsLoop a [t] (ds ++ [mkDepOp a c]) =
        .ok (modifyLast (extendPrior payload) (ds ++ [mkDepOp a c])) by
      simp only [addDepsLoop, ht]
      rw [if_neg (by simp [hu]), if_neg (by simp)],
    modifyLast_append_singleton]
  have hext : extendPrior payload (mkDepOp a c) = { mkDepOp a c with features := some [] } := by
    rw [extendPrior, hpl, hfeat]
    rfl
  rw [hext]

/-- Claim C10, witness: the amended theorem applied to the two-token input
a then bare plus, with the gate enabled and no other modifier. -/
theorem emptyAttachmentMakesEmptyFeaturesWitness :
    parse_dependencies { noArgs with crates := ["a".data, "+".data], unstable_options := true } =
      .ok ([] ++
        [{ mkDepOp { noArgs with crates := ["a".data, "+".data], unstable_options := true }
            "a".data with
           features := some [] }]) ∧
    (mkDepOp { noArgs with crates := ["a".data, "+".data], unstable_options := true }
      "a".data).features = none :=
  emptyAttachmentMakesEmptyFeatures
    { noArgs with crates := ["a".data, "+".data], unstable_options := true }
    [] "a".data "+".data [] [] rfl rfl rfl rfl rfl rfl rfl (by decide) (by decide)

end CargoAdd
